import Mathlib

/-!
Verification of the 2D point module (src/spatial/position.rs).

The repository provides a generic point type over fixed-width machine
integers with wraparound arithmetic.  We embed it shallowly: a machine
integer of signedness `sgn` and bit width `w` is modelled as an `Int`
together with the normalisation function `wrap sgn w`, which reduces an
integer into the representable range of the type (two's-complement range
for signed types, `[0, 2^w)` for unsigned types).  Each Rust
`wrapping_*` primitive becomes the exact integer operation followed by
`wrap`, which is precisely what the hardware operation computes.
-/

namespace Aocrs

/-- Reduction into the unsigned range `[0, 2^w)`: the value an unsigned
`w`-bit machine integer stores for the mathematical integer `z`. -/
def uwrap (w : Nat) (z : Int) : Int := z % (2 ^ w : Int)

/-- Reduction into the signed two's-complement range
`[-2^(w-1), 2^(w-1))`: the value a signed `w`-bit machine integer stores
for the mathematical integer `z`. -/
def swrap (w : Nat) (z : Int) : Int :=
  (z + 2 ^ (w - 1)) % (2 ^ w : Int) - 2 ^ (w - 1)

/-- Reduction into the representable range of a machine-integer type of
signedness `sgn` and width `w`. -/
def wrap (sgn : Bool) (w : Nat) (z : Int) : Int :=
  if sgn then swrap w z else uwrap w z

/-- Membership in the representable range of the machine-integer type. -/
def inRange (sgn : Bool) (w : Nat) (z : Int) : Prop :=
  if sgn then -(2 ^ (w - 1)) ≤ z ∧ z < 2 ^ (w - 1) else 0 ≤ z ∧ z < 2 ^ w

instance (sgn : Bool) (w : Nat) (z : Int) : Decidable (inRange sgn w z) := by
  unfold inRange
  infer_instance

/-- Rust `wrapping_add` on a `w`-bit integer of signedness `sgn`. -/
def wadd (sgn : Bool) (w : Nat) (a b : Int) : Int := wrap sgn w (a + b)

/-- Rust `wrapping_sub`. -/
def wsub (sgn : Bool) (w : Nat) (a b : Int) : Int := wrap sgn w (a - b)

/-- Rust `wrapping_mul`. -/
def wmul (sgn : Bool) (w : Nat) (a b : Int) : Int := wrap sgn w (a * b)

/-- Rust `wrapping_neg`. -/
def wneg (sgn : Bool) (w : Nat) (a : Int) : Int := wrap sgn w (-a)

/-- `Pos<T>`: a position in 2D space (src/spatial/position.rs, line 7). -/
structure Pos where
  x : Int
  y : Int
deriving DecidableEq, Repr

/-- `Add for Pos<T>` (line 30): componentwise `wrapping_add`. -/
def Pos.add (sgn : Bool) (w : Nat) (a b : Pos) : Pos :=
  ⟨wadd sgn w a.x b.x, wadd sgn w a.y b.y⟩

/-- `Sub for Pos<T>` (line 39): componentwise `wrapping_sub`. -/
def Pos.sub (sgn : Bool) (w : Nat) (a b : Pos) : Pos :=
  ⟨wsub sgn w a.x b.x, wsub sgn w a.y b.y⟩

/-- `Mul<T> for Pos<T>` (line 48): scalar `wrapping_mul` per component. -/
def Pos.mulScalar (sgn : Bool) (w : Nat) (a : Pos) (k : Int) : Pos :=
  ⟨wmul sgn w a.x k, wmul sgn w a.y k⟩

/-- `Neg for Pos<T>` (line 57): componentwise `wrapping_neg`. -/
def Pos.neg (sgn : Bool) (w : Nat) (a : Pos) : Pos :=
  ⟨wneg sgn w a.x, wneg sgn w a.y⟩

/-- `From<u8> for Pos<i8>` (lines 62-72): glyph to unit vector, with a
fallback branch mapping every unmatched byte to `(0, -1)`.
Byte values: 60 is the less-than sign, 62 the greater-than sign,
118 lowercase v, 86 uppercase V. -/
def Pos.fromByte (b : Fin 256) : Pos :=
  if b.val = 60 then ⟨-1, 0⟩
  else if b.val = 62 then ⟨1, 0⟩
  else if b.val = 118 ∨ b.val = 86 then ⟨0, 1⟩
  else ⟨0, -1⟩

/-- `Pos::crosses` (lines 77-84): the four orthogonal neighbours at
offset `dist`, in source order. -/
def Pos.crosses (sgn : Bool) (w : Nat) (p : Pos) (dist : Int) : List Pos :=
  [ ⟨p.x, wadd sgn w p.y dist⟩,
    ⟨p.x, wsub sgn w p.y dist⟩,
    ⟨wadd sgn w p.x dist, p.y⟩,
    ⟨wsub sgn w p.x dist, p.y⟩ ]

/-- `Pos::diagonals` (lines 88-95): the four diagonal neighbours at
offset `dist`, in source order. -/
def Pos.diagonals (sgn : Bool) (w : Nat) (p : Pos) (dist : Int) : List Pos :=
  [ ⟨wadd sgn w p.x dist, wadd sgn w p.y dist⟩,
    ⟨wsub sgn w p.x dist, wadd sgn w p.y dist⟩,
    ⟨wadd sgn w p.x dist, wsub sgn w p.y dist⟩,
    ⟨wsub sgn w p.x dist, wsub sgn w p.y dist⟩ ]

/-- `Pos::clockwise` (lines 101-103). -/
def Pos.clockwise (sgn : Bool) (w : Nat) (p : Pos) : Pos :=
  ⟨p.y, wneg sgn w p.x⟩

/-- `Pos::counterclockwise` (lines 107-109). -/
def Pos.counterclockwise (sgn : Bool) (w : Nat) (p : Pos) : Pos :=
  ⟨wneg sgn w p.y, p.x⟩

/-- The comparison Rust derives for a primitive integer:
less-than first, then equality, otherwise greater. -/
def intCmp (a b : Int) : Ordering :=
  if a < b then Ordering.lt else if a = b then Ordering.eq else Ordering.gt

/-- The `Ord` implementation derived for `Pos` (line 6): compare field
`x` first and fall through to field `y` on equality. -/
def Pos.cmp (a b : Pos) : Ordering :=
  match intCmp a.x b.x with
  | Ordering.eq => intCmp a.y b.y
  | o => o

/-- Strict order on positions induced by the derived comparison. -/
def Pos.lt (a b : Pos) : Prop := Pos.cmp a b = Ordering.lt

instance (a b : Pos) : Decidable (Pos.lt a b) := by
  unfold Pos.lt
  infer_instance

/-! ### Facts about the wrap functions -/

lemma two_pow_pos (w : Nat) : (0 : Int) < 2 ^ w := by positivity

lemma uwrap_emod (w : Nat) (z : Int) : uwrap w z % 2 ^ w = z % 2 ^ w := by
  unfold uwrap
  exact Int.emod_emod_of_dvd z dvd_rfl

lemma two_pow_split (w : Nat) (hw : 0 < w) :
    (2 : Int) ^ w = 2 ^ (w - 1) + 2 ^ (w - 1) := by
  obtain ⟨v, rfl⟩ : ∃ v, w = v + 1 := ⟨w - 1, (Nat.succ_pred_eq_of_pos hw).symm⟩
  rw [Nat.add_sub_cancel, pow_succ]
  ring

lemma swrap_emod (w : Nat) (hw : 0 < w) (z : Int) :
    swrap w z % 2 ^ w = z % 2 ^ w := by
  unfold swrap
  rw [Int.sub_emod, Int.emod_emod_of_dvd _ dvd_rfl, ← Int.sub_emod,
    add_sub_cancel_right]

lemma wrap_emod (sgn : Bool) (w : Nat) (hw : 0 < w) (z : Int) :
    wrap sgn w z % 2 ^ w = z % 2 ^ w := by
  unfold wrap
  cases sgn with
  | false => simpa using uwrap_emod w z
  | true => simpa using swrap_emod w hw z

lemma uwrap_range (w : Nat) (z : Int) :
    0 ≤ uwrap w z ∧ uwrap w z < 2 ^ w := by
  unfold uwrap
  exact ⟨Int.emod_nonneg z (ne_of_gt (two_pow_pos w)),
    Int.emod_lt_of_pos z (two_pow_pos w)⟩

lemma swrap_range (w : Nat) (hw : 0 < w) (z : Int) :
    -(2 ^ (w - 1)) ≤ swrap w z ∧ swrap w z < 2 ^ (w - 1) := by
  unfold swrap
  have h1 : 0 ≤ (z + 2 ^ (w - 1)) % 2 ^ w :=
    Int.emod_nonneg _ (ne_of_gt (two_pow_pos w))
  have h2 : (z + 2 ^ (w - 1)) % 2 ^ w < 2 ^ w :=
    Int.emod_lt_of_pos _ (two_pow_pos w)
  have h3 := two_pow_split w hw
  constructor <;> omega

lemma wrap_inRange (sgn : Bool) (w : Nat) (hw : 0 < w) (z : Int) :
    inRange sgn w (wrap sgn w z) := by
  unfold inRange wrap
  cases sgn with
  | false => simpa using uwrap_range w z
  | true => simpa using swrap_range w hw z

lemma uwrap_eq_self (w : Nat) (z : Int) (h0 : 0 ≤ z) (h1 : z < 2 ^ w) :
    uwrap w z = z := by
  unfold uwrap
  exact Int.emod_eq_of_lt h0 h1

lemma swrap_eq_self (w : Nat) (hw : 0 < w) (z : Int)
    (h0 : -(2 ^ (w - 1)) ≤ z) (h1 : z < 2 ^ (w - 1)) : swrap w z = z := by
  unfold swrap
  have h3 := two_pow_split w hw
  have h4 : (z + 2 ^ (w - 1)) % 2 ^ w = z + 2 ^ (w - 1) :=
    Int.emod_eq_of_lt (by omega) (by omega)
  omega

lemma wrap_eq_self (sgn : Bool) (w : Nat) (hw : 0 < w) (z : Int)
    (h : inRange sgn w z) : wrap sgn w z = z := by
  unfold inRange at h
  unfold wrap
  cases sgn with
  | false =>
    simp only [Bool.false_eq_true, if_false] at h ⊢
    exact uwrap_eq_self w z h.1 h.2
  | true =>
    simp only [if_true] at h ⊢
    exact swrap_eq_self w hw z h.1 h.2

lemma wrap_unique (sgn : Bool) (w : Nat) (hw : 0 < w) {a b : Int}
    (ha : inRange sgn w a) (hb : inRange sgn w b)
    (h : a % 2 ^ w = b % 2 ^ w) : a = b := by
  unfold inRange at ha hb
  cases sgn with
  | false =>
    simp only [Bool.false_eq_true, if_false] at ha hb
    calc a = a % 2 ^ w := (Int.emod_eq_of_lt ha.1 ha.2).symm
    _ = b % 2 ^ w := h
    _ = b := Int.emod_eq_of_lt hb.1 hb.2
  | true =>
    simp only [if_true] at ha hb
    have h3 := two_pow_split w hw
    have h4 : (a + 2 ^ (w - 1)) % 2 ^ w = a + 2 ^ (w - 1) :=
      Int.emod_eq_of_lt (by omega) (by omega)
    have h5 : (b + 2 ^ (w - 1)) % 2 ^ w = b + 2 ^ (w - 1) :=
      Int.emod_eq_of_lt (by omega) (by omega)
    have h6 : (a + 2 ^ (w - 1)) % 2 ^ w = (b + 2 ^ (w - 1)) % 2 ^ w := by
      rw [Int.add_emod, h, ← Int.add_emod]
    omega

lemma wneg_inRange (sgn : Bool) (w : Nat) (hw : 0 < w) (z : Int) :
    inRange sgn w (wneg sgn w z) := wrap_inRange sgn w hw (-z)

lemma wneg_emod (sgn : Bool) (w : Nat) (hw : 0 < w) (z : Int) :
    wneg sgn w z % 2 ^ w = (-z) % 2 ^ w := wrap_emod sgn w hw (-z)

lemma wneg_wneg (sgn : Bool) (w : Nat) (hw : 0 < w) (z : Int)
    (h : inRange sgn w z) : wneg sgn w (wneg sgn w z) = z := by
  apply wrap_unique sgn w hw (wneg_inRange sgn w hw _) h
  have h1 : Int.ModEq (2 ^ w) (wneg sgn w z) (-z) := wneg_emod sgn w hw z
  have h2 : Int.ModEq (2 ^ w) (wneg sgn w (wneg sgn w z)) (-(wneg sgn w z)) :=
    wneg_emod sgn w hw _
  have h3 : Int.ModEq (2 ^ w) (-(wneg sgn w z)) z := by
    simpa using Int.ModEq.neg h1
  exact h2.trans h3

lemma intCmp_lt (a b : Int) : intCmp a b = Ordering.lt ↔ a < b := by
  unfold intCmp
  split_ifs with h1 h2 <;> simp <;> omega

lemma intCmp_eq (a b : Int) : intCmp a b = Ordering.eq ↔ a = b := by
  unfold intCmp
  split_ifs with h1 h2 <;> simp <;> omega

lemma intCmp_gt_of (a b : Int) (h : b < a) : intCmp a b = Ordering.gt := by
  unfold intCmp
  rw [if_neg (by omega), if_neg (by omega)]

lemma Pos.eq_iff (a b : Pos) : a = b ↔ a.x = b.x ∧ a.y = b.y := by
  obtain ⟨ax, ay⟩ := a
  obtain ⟨bx, bz⟩ := b
  simp [Pos.mk.injEq]

/-! ### Claims -/

/-- C1: the directional-glyph conversion is total, sends the less-than
byte to (-1, 0), the greater-than byte to (1, 0), lowercase and
uppercase v to (0, 1), and every other byte (the caret included) to
(0, -1) through the fallback branch; every output is one of the four
unit vectors. -/
theorem fromByte_glyphs :
    Pos.fromByte 60 = ⟨-1, 0⟩
    ∧ Pos.fromByte 62 = ⟨1, 0⟩
    ∧ Pos.fromByte 118 = ⟨0, 1⟩
    ∧ Pos.fromByte 86 = ⟨0, 1⟩
    ∧ Pos.fromByte 94 = ⟨0, -1⟩
    ∧ (∀ b : Fin 256, b.val ≠ 60 → b.val ≠ 62 → b.val ≠ 118 → b.val ≠ 86 →
        Pos.fromByte b = ⟨0, -1⟩)
    ∧ (∀ b : Fin 256,
        Pos.fromByte b = ⟨-1, 0⟩ ∨ Pos.fromByte b = ⟨1, 0⟩
        ∨ Pos.fromByte b = ⟨0, 1⟩ ∨ Pos.fromByte b = ⟨0, -1⟩)
    ∧ (∀ b : Fin 256,
        inRange true 8 (Pos.fromByte b).x ∧ inRange true 8 (Pos.fromByte b).y) := by
  refine ⟨by decide, by decide, by decide, by decide, by decide, ?_, ?_, ?_⟩
  · intro b h1 h2 h3 h4
    unfold Pos.fromByte
    rw [if_neg h1, if_neg h2, if_neg (by tauto)]
  · intro b
    unfold Pos.fromByte
    split_ifs <;> simp
  · intro b
    unfold Pos.fromByte
    split_ifs <;> exact ⟨by decide, by decide⟩

/-- Witness for C1: an unrecognized byte (lowercase x, 120) falls to the
default branch. -/
theorem fromByte_glyphs_witness : Pos.fromByte 120 = ⟨0, -1⟩ :=
  fromByte_glyphs.2.2.2.2.2.1 120 (by decide) (by decide) (by decide) (by decide)

/-- C2: addition is componentwise and wraps modulo the bit width: each
output coordinate is congruent to the exact sum modulo 2^w and lies in
the representable range; for signed 32-bit, (1,2) + (MAX,MAX) =
(MIN, MIN+1). -/
theorem add_wraps (sgn : Bool) (w : Nat) (hw : 0 < w) (a b : Pos) :
    ((Pos.add sgn w a b).x % 2 ^ w = (a.x + b.x) % 2 ^ w
      ∧ (Pos.add sgn w a b).y % 2 ^ w = (a.y + b.y) % 2 ^ w
      ∧ inRange sgn w (Pos.add sgn w a b).x
      ∧ inRange sgn w (Pos.add sgn w a b).y)
    ∧ Pos.add true 32 ⟨1, 2⟩ ⟨2 ^ 31 - 1, 2 ^ 31 - 1⟩
        = ⟨-(2 ^ 31), -(2 ^ 31) + 1⟩ :=
  ⟨⟨wrap_emod sgn w hw _, wrap_emod sgn w hw _,
    wrap_inRange sgn w hw _, wrap_inRange sgn w hw _⟩, by decide⟩

/-- Witness for C2 at the signed 32-bit boundary example. -/
theorem add_wraps_witness :
    Pos.add true 32 ⟨1, 2⟩ ⟨2 ^ 31 - 1, 2 ^ 31 - 1⟩
      = ⟨-(2 ^ 31), -(2 ^ 31) + 1⟩ :=
  (add_wraps true 32 (by decide) ⟨0, 0⟩ ⟨0, 0⟩).2

/-- C3: crosses returns exactly 4 points, in order: (x, y+dist),
(x, y-dist), (x+dist, y), (x-dist, y), every moved coordinate congruent
to the exact sum or difference modulo 2^w and in the representable
range. -/
theorem crosses_four (sgn : Bool) (w : Nat) (hw : 0 < w) (p : Pos) (d : Int) :
    (Pos.crosses sgn w p d).length = 4
    ∧ ((Pos.crosses sgn w p d).getD 0 ⟨0, 0⟩).x = p.x
    ∧ ((Pos.crosses sgn w p d).getD 0 ⟨0, 0⟩).y % 2 ^ w = (p.y + d) % 2 ^ w
    ∧ inRange sgn w ((Pos.crosses sgn w p d).getD 0 ⟨0, 0⟩).y
    ∧ ((Pos.crosses sgn w p d).getD 1 ⟨0, 0⟩).x = p.x
    ∧ ((Pos.crosses sgn w p d).getD 1 ⟨0, 0⟩).y % 2 ^ w = (p.y - d) % 2 ^ w
    ∧ inRange sgn w ((Pos.crosses sgn w p d).getD 1 ⟨0, 0⟩).y
    ∧ ((Pos.crosses sgn w p d).getD 2 ⟨0, 0⟩).y = p.y
    ∧ ((Pos.crosses sgn w p d).getD 2 ⟨0, 0⟩).x % 2 ^ w = (p.x + d) % 2 ^ w
    ∧ inRange sgn w ((Pos.crosses sgn w p d).getD 2 ⟨0, 0⟩).x
    ∧ ((Pos.crosses sgn w p d).getD 3 ⟨0, 0⟩).y = p.y
    ∧ ((Pos.crosses sgn w p d).getD 3 ⟨0, 0⟩).x % 2 ^ w = (p.x - d) % 2 ^ w
    ∧ inRange sgn w ((Pos.crosses sgn w p d).getD 3 ⟨0, 0⟩).x :=
  ⟨rfl, rfl, wrap_emod sgn w hw _, wrap_inRange sgn w hw _,
   rfl, wrap_emod sgn w hw _, wrap_inRange sgn w hw _,
   rfl, wrap_emod sgn w hw _, wrap_inRange sgn w hw _,
   rfl, wrap_emod sgn w hw _, wrap_inRange sgn w hw _⟩

/-- Witness for C3 at an unsigned 32-bit origin with distance 1. -/
theorem crosses_four_witness : (Pos.crosses false 32 ⟨0, 0⟩ 1).length = 4 :=
  (crosses_four false 32 (by decide) ⟨0, 0⟩ 1).1

/-- C4: diagonals returns exactly 4 points, in order: (x+dist, y+dist),
(x-dist, y+dist), (x+dist, y-dist), (x-dist, y-dist), every coordinate
congruent to the exact sum or difference modulo 2^w and in the
representable range. -/
theorem diagonals_four (sgn : Bool) (w : Nat) (hw : 0 < w) (p : Pos) (d : Int) :
    (Pos.diagonals sgn w p d).length = 4
    ∧ ((Pos.diagonals sgn w p d).getD 0 ⟨0, 0⟩).x % 2 ^ w = (p.x + d) % 2 ^ w
    ∧ ((Pos.diagonals sgn w p d).getD 0 ⟨0, 0⟩).y % 2 ^ w = (p.y + d) % 2 ^ w
    ∧ ((Pos.diagonals sgn w p d).getD 1 ⟨0, 0⟩).x % 2 ^ w = (p.x - d) % 2 ^ w
    ∧ ((Pos.diagonals sgn w p d).getD 1 ⟨0, 0⟩).y % 2 ^ w = (p.y + d) % 2 ^ w
    ∧ ((Pos.diagonals sgn w p d).getD 2 ⟨0, 0⟩).x % 2 ^ w = (p.x + d) % 2 ^ w
    ∧ ((Pos.diagonals sgn w p d).getD 2 ⟨0, 0⟩).y % 2 ^ w = (p.y - d) % 2 ^ w
    ∧ ((Pos.diagonals sgn w p d).getD 3 ⟨0, 0⟩).x % 2 ^ w = (p.x - d) % 2 ^ w
    ∧ ((Pos.diagonals sgn w p d).getD 3 ⟨0, 0⟩).y % 2 ^ w = (p.y - d) % 2 ^ w
    ∧ (∀ q ∈ Pos.diagonals sgn w p d, inRange sgn w q.x ∧ inRange sgn w q.y) := by
  refine ⟨rfl, wrap_emod sgn w hw _, wrap_emod sgn w hw _,
    wrap_emod sgn w hw _, wrap_emod sgn w hw _,
    wrap_emod sgn w hw _, wrap_emod sgn w hw _,
    wrap_emod sgn w hw _, wrap_emod sgn w hw _, ?_⟩
  intro q hq
  simp only [Pos.diagonals, List.mem_cons, List.not_mem_nil, or_false] at hq
  rcases hq with rfl | rfl | rfl | rfl <;>
    exact ⟨wrap_inRange sgn w hw _, wrap_inRange sgn w hw _⟩

/-- Witness for C4 at an unsigned 32-bit origin with distance 1. -/
theorem diagonals_four_witness : (Pos.diagonals false 32 ⟨0, 0⟩ 1).length = 4 :=
  (diagonals_four false 32 (by decide) ⟨0, 0⟩ 1).1

/-- C5: clockwise and counterclockwise are mutual inverses on every
representable point. -/
theorem turns_mutual_inverse (sgn : Bool) (w : Nat) (hw : 0 < w) (p : Pos)
    (hx : inRange sgn w p.x) (hy : inRange sgn w p.y) :
    Pos.counterclockwise sgn w (Pos.clockwise sgn w p) = p
    ∧ Pos.clockwise sgn w (Pos.counterclockwise sgn w p) = p := by
  obtain ⟨x, y⟩ := p
  simp only [Pos.clockwise, Pos.counterclockwise] at hx hy ⊢
  exact ⟨by rw [wneg_wneg sgn w hw x hx], by rw [wneg_wneg sgn w hw y hy]⟩

/-- Witness for C5 at the signed 8-bit minimum, where negation wraps. -/
theorem turns_mutual_inverse_witness :
    Pos.counterclockwise true 8 (Pos.clockwise true 8 ⟨-128, 7⟩) = ⟨-128, 7⟩ :=
  (turns_mutual_inverse true 8 (by decide) ⟨-128, 7⟩ (by decide) (by decide)).1

/-- C6: four clockwise quarter-turns return every representable point to
itself, including extreme values where negation wraps. -/
theorem clockwise_fourth (sgn : Bool) (w : Nat) (hw : 0 < w) (p : Pos)
    (hx : inRange sgn w p.x) (hy : inRange sgn w p.y) :
    Pos.clockwise sgn w (Pos.clockwise sgn w
      (Pos.clockwise sgn w (Pos.clockwise sgn w p))) = p := by
  obtain ⟨x, y⟩ := p
  simp only [Pos.clockwise] at hx hy ⊢
  rw [wneg_wneg sgn w hw x hx, wneg_wneg sgn w hw y hy]

/-- Witness for C6 at the signed 8-bit minimum in both coordinates. -/
theorem clockwise_fourth_witness :
    Pos.clockwise true 8 (Pos.clockwise true 8
      (Pos.clockwise true 8 (Pos.clockwise true 8 ⟨-128, -128⟩))) = ⟨-128, -128⟩ :=
  clockwise_fourth true 8 (by decide) ⟨-128, -128⟩ (by decide) (by decide)

/-- C7: scalar multiplication is componentwise and wraps modulo the bit
width; for signed 32-bit, (1,2) * MAX = (MAX, -2). -/
theorem mul_wraps (sgn : Bool) (w : Nat) (hw : 0 < w) (a : Pos) (k : Int) :
    ((Pos.mulScalar sgn w a k).x % 2 ^ w = a.x * k % 2 ^ w
      ∧ (Pos.mulScalar sgn w a k).y % 2 ^ w = a.y * k % 2 ^ w
      ∧ inRange sgn w (Pos.mulScalar sgn w a k).x
      ∧ inRange sgn w (Pos.mulScalar sgn w a k).y)
    ∧ Pos.mulScalar true 32 ⟨1, 2⟩ (2 ^ 31 - 1) = ⟨2 ^ 31 - 1, -2⟩ :=
  ⟨⟨wrap_emod sgn w hw _, wrap_emod sgn w hw _,
    wrap_inRange sgn w hw _, wrap_inRange sgn w hw _⟩, by decide⟩

/-- Witness for C7 at the signed 32-bit boundary example. -/
theorem mul_wraps_witness :
    Pos.mulScalar true 32 ⟨1, 2⟩ (2 ^ 31 - 1) = ⟨2 ^ 31 - 1, -2⟩ :=
  (mul_wraps true 32 (by decide) ⟨0, 0⟩ 0).2

/-- C8: negation is componentwise wrapping negation: each output
coordinate is congruent to the exact negation modulo 2^w and lies in the
representable range (so the operation is total and never signals an
error); negating the signed minimum yields the minimum again, and for
unsigned 32-bit, negating (1,2) yields (MAX, MAX-1). -/
theorem neg_wraps (sgn : Bool) (w : Nat) (hw : 0 < w) (a : Pos) :
    ((Pos.neg sgn w a).x % 2 ^ w = (-a.x) % 2 ^ w
      ∧ (Pos.neg sgn w a).y % 2 ^ w = (-a.y) % 2 ^ w
      ∧ inRange sgn w (Pos.neg sgn w a).x
      ∧ inRange sgn w (Pos.neg sgn w a).y)
    ∧ wneg true w (-(2 ^ (w - 1))) = -(2 ^ (w - 1))
    ∧ Pos.neg false 32 ⟨1, 2⟩ = ⟨2 ^ 32 - 1, 2 ^ 32 - 2⟩ := by
  refine ⟨⟨wneg_emod sgn w hw _, wneg_emod sgn w hw _,
    wneg_inRange sgn w hw _, wneg_inRange sgn w hw _⟩, ?_, by decide⟩
  show wrap true w (-(-(2 ^ (w - 1)))) = -(2 ^ (w - 1))
  simp only [neg_neg, wrap, if_true, swrap]
  rw [← two_pow_split w hw, Int.emod_self]
  omega

/-- Witness for C8: the unsigned 32-bit example. -/
theorem neg_wraps_witness : Pos.neg false 32 ⟨1, 2⟩ = ⟨2 ^ 32 - 1, 2 ^ 32 - 2⟩ :=
  (neg_wraps false 32 (by decide) ⟨0, 0⟩).2.2

/-- C9: equality is structural and the derived order is lexicographic
with x compared first and y second; in particular (1,0) < (1,1) and
(0,5) < (1,0). -/
theorem order_lexicographic (a b : Pos) :
    (Pos.lt a b ↔ a.x < b.x ∨ (a.x = b.x ∧ a.y < b.y))
    ∧ (a = b ↔ a.x = b.x ∧ a.y = b.y)
    ∧ Pos.lt ⟨1, 0⟩ ⟨1, 1⟩ ∧ Pos.lt ⟨0, 5⟩ ⟨1, 0⟩ := by
  refine ⟨?_, Pos.eq_iff a b, by decide, by decide⟩
  unfold Pos.lt Pos.cmp
  rcases lt_trichotomy a.x b.x with h | h | h
  · rw [(intCmp_lt a.x b.x).mpr h]
    simp [h]
  · rw [(intCmp_eq a.x b.x).mpr h]
    simp only [intCmp_lt]
    simp [h]
  · rw [intCmp_gt_of a.x b.x h]
    simp only []
    constructor
    · intro hfalse
      exact absurd hfalse (by decide)
    · intro hor
      omega

/-- C10: subtraction agrees with adding the wrapping negation, for every
signedness, positive bit width, and pair of points. -/
theorem sub_is_add_of_neg (sgn : Bool) (w : Nat) (hw : 0 < w) (a b : Pos) :
    Pos.sub sgn w a b = Pos.add sgn w a (Pos.neg sgn w b) := by
  have key : ∀ u v : Int, wsub sgn w u v = wadd sgn w u (wneg sgn w v) := by
    intro u v
    apply wrap_unique sgn w hw (wrap_inRange sgn w hw _) (wrap_inRange sgn w hw _)
    have h1 : Int.ModEq (2 ^ w) (wadd sgn w u (wneg sgn w v)) (u + wneg sgn w v) :=
      wrap_emod sgn w hw _
    have h2 : Int.ModEq (2 ^ w) (u + wneg sgn w v) (u + -v) :=
      Int.ModEq.add_left u (wneg_emod sgn w hw v)
    have h3 : Int.ModEq (2 ^ w) (wsub sgn w u v) (u - v) := wrap_emod sgn w hw _
    have h5 : Int.ModEq (2 ^ w) (u - v) (wadd sgn w u (wneg sgn w v)) := by
      rw [sub_eq_add_neg]
      exact (h1.trans h2).symm
    exact h3.trans h5
  obtain ⟨ax, ay⟩ := a
  obtain ⟨bx, bz⟩ := b
  simp only [Pos.sub, Pos.add, Pos.neg, key]

/-- Witness for C10 over signed 32-bit at a boundary value. -/
theorem sub_is_add_of_neg_witness :
    Pos.sub true 32 ⟨-1, -2⟩ ⟨2 ^ 31 - 1, 2 ^ 31 - 1⟩
      = Pos.add true 32 ⟨-1, -2⟩ (Pos.neg true 32 ⟨2 ^ 31 - 1, 2 ^ 31 - 1⟩) :=
  sub_is_add_of_neg true 32 (by decide) ⟨-1, -2⟩ ⟨2 ^ 31 - 1, 2 ^ 31 - 1⟩

end Aocrs
